import Mathlib

/-!
Verification of the rename-debouncing and alias-reconciliation core of the
Alias File Name History plugin.

The embedding translates the current source tree (src/main.ts,
src/utils/path-utils.ts, src/utils/alias-processor.ts) into executable Lean
definitions:

* JS strings are Lean String values, manipulated through their character
  lists where the source uses split / regex operations.
* A compiled RegExp is represented by its test function, of type
  String → Bool; a configured pattern that fails to compile (caught by the
  try/catch in the source) is represented as none, so the configured
  pattern list has type List (Option (String → Bool)).
* The debounce coordinator's mutable Map, entry objects and setTimeout
  timers are modelled as an explicit state record: entry objects live in a
  heap keyed by an id (preserving the object aliasing between the map and
  the timer callbacks), the Map maps a path to an entry id, and an armed
  timer is a (timerId, deadline, entryId) triple.
-/

/-- JS String.prototype.toLowerCase, modelled by lower-casing every
character of the character list (String.toLower performs the same character
map; this formulation keeps the function computable by the kernel). -/
def toLowerStr (s : String) : String :=
  String.mk (s.toList.map Char.toLower)

/-- JS "s".split('/') on a character list: splits at every '/' character,
keeping empty segments, and yields one (possibly empty) segment even for the
empty input. -/
def splitSlash : List Char → List (List Char)
  | [] => [[]]
  | c :: rest =>
    match splitSlash rest with
    | [] => [[]]
    | seg :: segs => if c == '/' then [] :: seg :: segs else (c :: seg) :: segs

/-- The trailing-extension removal of getBasename, i.e. the regex
replace(/\.[^/.]+$/, ''): if the string ends in a dot followed by a
non-empty run of characters that are neither '/' nor '.', that dot and the
run are removed; otherwise the string is unchanged. -/
def stripExtChars (seg : List Char) : List Char :=
  let revTail := seg.reverse.takeWhile (fun c => c != '/' && c != '.')
  if revTail.length != 0 && (seg.reverse.drop revTail.length).head? == some '.' then
    (seg.reverse.drop (revTail.length + 1)).reverse
  else seg

/-- getBasename from src/utils/path-utils.ts: last slash-delimited segment of
the path (JS path.split('/').pop() with empty-string fallback) with the
trailing extension removed by replace(/\.[^/.]+$/, ''). -/
def getBasename (path : String) : String :=
  String.mk (stripExtChars ((splitSlash path.toList).getLast?.getD []))

/-- getImmediateParentName from src/utils/path-utils.ts: drop the final
segment (parts.pop()), then take the new final segment or the empty string
(parts.pop() with the empty-string fallback). -/
def getImmediateParentName (path : String) : String :=
  String.mk (((splitSlash path.toList).dropLast).getLast?.getD [])

/-- Substring test, JS String.prototype.includes on character lists. -/
def containsSub : List Char → List Char → Bool
  | [], needle => needle.isEmpty
  | c :: tail, needle => needle.isPrefixOf (c :: tail) || containsSub tail needle

/-- Fuel-driven scan for stripTokens; the fuel only serves structural
termination and is always supplied as the list length, which suffices since
every step consumes at least one character. -/
def stripTokensFuel : Nat → List Char → List Char
  | _, [] => []
  | 0, cs => cs
  | fuel + 1, c :: rest =>
    if "{vault}".toList.isPrefixOf (c :: rest) then stripTokensFuel fuel ((c :: rest).drop 7)
    else if "{root}".toList.isPrefixOf (c :: rest) then stripTokensFuel fuel ((c :: rest).drop 6)
    else c :: stripTokensFuel fuel rest

/-- The replace(/\{vault\}|\{root\}/g, '') operation: one left-to-right scan
which at each position removes the token "{vault}" if present (first
alternative), otherwise the token "{root}" if present, otherwise keeps the
character; scanning resumes after a removed token, as a JS global regex
replace does. -/
def stripTokens (cs : List Char) : List Char :=
  stripTokensFuel cs.length cs

/-- JS String.prototype.startsWith, via the character lists. -/
def startsWithStr (s pre : String) : Bool :=
  pre.toList.isPrefixOf s.toList

/-- Whether the folder spec mentions a root-wildcard token, i.e. the JS test
folder.includes('{vault}') || folder.includes('{root}'). -/
def hasRootToken (folder : String) : Bool :=
  containsSub folder.toList "{vault}".toList || containsSub folder.toList "{root}".toList

/-- The resolvedFolder value of isPathInFolder: the spec with every
root-wildcard token removed. -/
def resolveTokens (folder : String) : String :=
  String.mk (stripTokens folder.toList)

/-- isPathInFolder from src/main.ts: root-wildcard aware folder membership
test. -/
def isPathInFolder (path folder : String) : Bool :=
  if hasRootToken folder then
    let resolvedFolder := resolveTokens folder
    if resolvedFolder == "" || resolvedFolder == "/" then
      !(containsSub path.toList "/".toList)
    else
      startsWithStr path (resolvedFolder ++ "/") || path == resolvedFolder
  else
    startsWithStr path (folder ++ "/") || path == folder

/-! ### Helper lemmas about the path functions -/

lemma stripTokensFuel_no_token : ∀ (fuel : Nat) (cs : List Char),
    containsSub cs "{vault}".toList = false → containsSub cs "{root}".toList = false →
    stripTokensFuel fuel cs = cs
  | 0, cs, _, _ => by cases cs <;> rfl
  | _ + 1, [], _, _ => rfl
  | fuel + 1, c :: rest, h1, h2 => by
    simp only [containsSub, Bool.or_eq_false_iff] at h1 h2
    simp only [stripTokensFuel, h1.1, h2.1, Bool.false_eq_true, if_false]
    simp [stripTokensFuel_no_token fuel rest h1.2 h2.2]

lemma mk_toList (s : String) : String.mk s.toList = s := rfl

/-- Stripping root-wildcard tokens from a spec that mentions none is the
identity. -/
lemma resolveTokens_of_no_token (folder : String) (h : hasRootToken folder = false) :
    resolveTokens folder = folder := by
  simp [hasRootToken, Bool.or_eq_false_iff] at h
  simp [resolveTokens, stripTokens, stripTokensFuel_no_token _ _ h.1 h.2, mk_toList]

lemma splitSlash_ne_nil : ∀ (cs : List Char), splitSlash cs ≠ []
  | [] => by simp [splitSlash]
  | c :: rest => by
    have h := splitSlash_ne_nil rest
    rcases hsp : splitSlash rest with _ | ⟨seg, segs⟩
    · exact absurd hsp h
    · simp only [splitSlash, hsp]
      split <;> simp

lemma splitSlash_no_slash : ∀ (cs : List Char), ∀ seg ∈ splitSlash cs, '/' ∉ seg
  | [] => by simp [splitSlash]
  | c :: rest => by
    have ih := splitSlash_no_slash rest
    rcases hsp : splitSlash rest with _ | ⟨seg, segs⟩
    · exact absurd hsp (splitSlash_ne_nil rest)
    · rw [hsp] at ih
      simp only [splitSlash, hsp]
      intro s hs
      by_cases hc : c = '/'
      · rw [if_pos (show (c == '/') = true by simp [hc])] at hs
        rcases List.mem_cons.mp hs with rfl | hs
        · simp
        · exact ih s hs
      · rw [if_neg (show ¬ ((c == '/') = true) by simp [hc])] at hs
        rcases List.mem_cons.mp hs with rfl | hs
        · have hseg := ih seg (List.mem_cons_self _ _)
          intro hmem
          rcases List.mem_cons.mp hmem with heq | hmem
          · exact hc heq.symm
          · exact hseg hmem
        · exact ih s (List.mem_cons_of_mem _ hs)

/-- The final path segment contains no slash. -/
lemma lastSeg_no_slash (cs : List Char) : '/' ∉ (splitSlash cs).getLast?.getD [] := by
  have hne : splitSlash cs ≠ [] := splitSlash_ne_nil cs
  rw [List.getLast?_eq_getLast_of_ne_nil hne]
  simpa using splitSlash_no_slash cs _ (List.getLast_mem hne)

lemma takeWhile_congr_mem {p q : Char → Bool} :
    ∀ (l : List Char), (∀ x ∈ l, p x = q x) → l.takeWhile p = l.takeWhile q
  | [], _ => rfl
  | c :: rest, h => by
    have hc := h c (List.mem_cons_self _ _)
    have ih := takeWhile_congr_mem rest (fun x hx => h x (List.mem_cons_of_mem _ hx))
    simp only [List.takeWhile_cons, hc, ih]

lemma head_dropWhile_dot : ∀ (l : List Char), l.contains '.' = true →
    (l.dropWhile (fun c => c != '.')).head? = some '.'
  | [], h => by simp [List.contains] at h
  | c :: rest, h => by
    by_cases hc : c = '.'
    · subst hc; simp [List.dropWhile_cons]
    · have hrest : rest.contains '.' = true := by
        simp [List.contains, List.elem_cons] at h ⊢
        rcases h with h | h
        · exact absurd h.symm hc
        · simpa [List.contains, List.elem_iff] using h
      simp only [List.dropWhile_cons]
      rw [if_pos (by simp [hc])]
      exact head_dropWhile_dot rest hrest

lemma drop_length_takeWhile (p : Char → Bool) (l : List Char) :
    l.drop (l.takeWhile p).length = l.dropWhile p := by
  nth_rewrite 2 [← List.takeWhile_append_dropWhile (p := p) (l := l)]
  exact List.drop_left _ _

/-- Modelled from the amended claim for getBasename: take the last
slash-delimited segment; when the segment contains a dot and at least one
character follows its final dot, remove the final dot and everything after
it; otherwise return the segment whole. -/
def basenameSpecAmended (path : String) : String :=
  let seg := (splitSlash path.toList).getLast?.getD []
  let afterFinalDot := seg.reverse.takeWhile (fun c => c != '.')
  if seg.contains '.' && !afterFinalDot.isEmpty then
    String.mk (((seg.reverse.dropWhile (fun c => c != '.')).drop 1).reverse)
  else String.mk seg

lemma stripExtChars_eq_spec (seg : List Char) (hsl : '/' ∉ seg) :
    stripExtChars seg =
      (if seg.contains '.' && !(seg.reverse.takeWhile (fun c => c != '.')).isEmpty
        then ((seg.reverse.dropWhile (fun c => c != '.')).drop 1).reverse
        else seg) := by
  unfold stripExtChars
  have htw : seg.reverse.takeWhile (fun c => c != '/' && c != '.')
      = seg.reverse.takeWhile (fun c => c != '.') := by
    refine takeWhile_congr_mem _ (fun x hx => ?_)
    have hx' : x ≠ '/' := fun h => hsl (h ▸ List.mem_reverse.mp hx)
    simp [hx']
  have hdrop : seg.reverse.drop (seg.reverse.takeWhile (fun c => c != '.')).length
      = seg.reverse.dropWhile (fun c => c != '.') := drop_length_takeWhile _ _
  simp only [htw, hdrop]
  by_cases hdot : seg.contains '.' = true
  · have hmem : '.' ∈ seg := List.elem_iff.mp hdot
    have hcr : seg.reverse.contains '.' = true :=
      List.elem_iff.mpr (List.mem_reverse.mpr hmem)
    have hhead := head_dropWhile_dot seg.reverse hcr
    rw [hdot, hhead]
    simp only [beq_self_eq_true, Bool.and_true, Bool.true_and]
    by_cases hA : (seg.reverse.takeWhile (fun c => c != '.')).isEmpty = true
    · have hAnil : seg.reverse.takeWhile (fun c => c != '.') = [] :=
        List.isEmpty_iff.mp hA
      rw [hAnil]
      simp
    · have hA1 : ((seg.reverse.takeWhile (fun c => c != '.')).length != 0) = true := by
        rcases h : seg.reverse.takeWhile (fun c => c != '.') with _ | _
        · exact absurd (by simp [h]) hA
        · simp
      have hA2 : (!(seg.reverse.takeWhile (fun c => c != '.')).isEmpty) = true := by
        simp only [Bool.not_eq_true] at hA
        simp [hA]
      rw [hA1, hA2]
      simp only [if_true]
      rw [← hdrop, List.drop_drop, Nat.add_comm]
  · have hdot' : seg.contains '.' = false := by simpa using hdot
    have hnil : seg.reverse.dropWhile (fun c => c != '.') = [] := by
      rw [List.dropWhile_eq_nil_iff]
      intro x hx
      have hx' : x ≠ '.' := by
        intro h
        subst h
        exact hdot (List.elem_iff.mpr (List.mem_reverse.mp hx))
      simp [hx']
    rw [hdot', hnil]
    simp

lemma getBasename_eq_spec (path : String) : getBasename path = basenameSpecAmended path := by
  have h := stripExtChars_eq_spec ((splitSlash path.toList).getLast?.getD [])
    (lastSeg_no_slash path.toList)
  simp only [getBasename, basenameSpecAmended, h, apply_ite String.mk]

lemma stripExtChars_prefix (seg : List Char) : stripExtChars seg <+: seg := by
  simp only [stripExtChars]
  split
  · have hsfx : seg.reverse.drop
        ((seg.reverse.takeWhile (fun c => c != '/' && c != '.')).length + 1)
        <:+ seg.reverse := List.drop_suffix _ _
    have h2 := List.reverse_prefix.mpr hsfx
    simpa using h2
  · exact List.prefix_refl _

lemma getBasename_prefix_lastSeg (path : String) :
    (getBasename path).toList <+: (splitSlash path.toList).getLast?.getD [] := by
  have h := stripExtChars_prefix ((splitSlash path.toList).getLast?.getD [])
  simpa [getBasename] using h

/-- C9 counterexample: the claim requires that whenever the last segment has a
dot, the text from its final dot to its end is stripped, so getBasename
"a/b." would have to be "b"; the code's replace(/\.[^/.]+$/, '') needs at
least one character after the dot and leaves "b." unchanged. -/
theorem getBasename_trailing_dot_cx :
    getBasename "a/b." = "b." ∧ getBasename "a/b." ≠ "b" := by decide

/-- C9 (amended): getBasename takes the last slash-delimited segment and
strips the final dot together with the text after it exactly when at least
one character follows that final dot; a segment with no dot, or ending in
its final dot, is returned whole; the result is always a prefix of the last
segment, so no character before the last segment is ever removed; and
getBasename "a/b.c.md" = "b.c". -/
theorem getBasename_spec_equiv :
    (∀ path, getBasename path = basenameSpecAmended path) ∧
    (∀ path, (getBasename path).toList <+: (splitSlash path.toList).getLast?.getD []) ∧
    getBasename "a/b.c.md" = "b.c" :=
  ⟨getBasename_eq_spec, getBasename_prefix_lastSeg, by decide⟩

/-- C7 counterexample: for the folder spec "&#x7b;vault&#x7d;foo" (a spec
containing a root-wildcard token that resolves to the non-empty "foo"), the
predicate accepts the path "foo" even though that path neither equals the
spec nor starts with the spec followed by a slash, contradicting the
claim's description of every spec that does not reduce to empty or "/". -/
theorem isPathInFolder_token_literal_cx :
    isPathInFolder "foo" "{vault}foo" = true ∧
    "foo" ≠ "{vault}foo" ∧
    startsWithStr "foo" ("{vault}foo" ++ "/") = false := by decide

/-- C7 (amended): for a folder spec containing a root-wildcard token whose
token-stripped form is empty or "/", the predicate holds iff the path has no
slash; for every other spec the predicate holds iff the path equals the
token-stripped spec or starts with it followed by "/", where stripping is
the identity on specs without a token. -/
theorem isPathInFolder_characterization (path folder : String) :
    (hasRootToken folder = true → (resolveTokens folder = "" ∨ resolveTokens folder = "/") →
      (isPathInFolder path folder = true ↔ containsSub path.toList "/".toList = false)) ∧
    (hasRootToken folder = true → ¬(resolveTokens folder = "" ∨ resolveTokens folder = "/") →
      (isPathInFolder path folder = true ↔
        (path = resolveTokens folder ∨ startsWithStr path (resolveTokens folder ++ "/") = true))) ∧
    (hasRootToken folder = false →
      resolveTokens folder = folder ∧
      (isPathInFolder path folder = true ↔
        (path = resolveTokens folder ∨ startsWithStr path (resolveTokens folder ++ "/") = true))) := by
  refine ⟨?_, ?_, ?_⟩
  · intro h1 h2
    have hcond : (resolveTokens folder == "" || resolveTokens folder == "/") = true := by
      rcases h2 with h | h <;> simp [h]
    simp [isPathInFolder, h1, hcond]
  · intro h1 h2
    push_neg at h2
    have hcond : (resolveTokens folder == "" || resolveTokens folder == "/") = false := by
      simp [h2.1, h2.2]
    simp only [isPathInFolder, h1, if_true, hcond, Bool.false_eq_true, if_false,
      Bool.or_eq_true, beq_iff_eq]
    tauto
  · intro h1
    refine ⟨resolveTokens_of_no_token folder h1, ?_⟩
    rw [resolveTokens_of_no_token folder h1]
    simp only [isPathInFolder, h1, Bool.false_eq_true, if_false, Bool.or_eq_true, beq_iff_eq]
    tauto

/-- Witness for the C7 amended theorem at a concrete spec and path. -/
theorem isPathInFolder_characterization_witness :
    isPathInFolder "b.md" "{vault}" = true ↔ containsSub "b.md".toList "/".toList = false :=
  (isPathInFolder_characterization "b.md" "{vault}").1 (by decide) (by decide)

example : getBasename "a/b.c.md" = "b.c" := by decide
example : getBasename "a/b." = "b." := by decide
example : getBasename "note.md" = "note" := by decide
example : getBasename ".md" = "" := by decide
example : getBasename "" = "" := by decide
example : getImmediateParentName "a/b/file.md" = "b" := by decide
example : getImmediateParentName "file.md" = "" := by decide
example : isPathInFolder "b.md" "{vault}" = true := by decide
example : isPathInFolder "a/b.md" "{vault}" = false := by decide
example : isPathInFolder "foo/x.md" "{vault}foo" = true := by decide
example : isPathInFolder "foo" "{vault}foo" = true := by decide
example : isPathInFolder "a/b.md" "a" = true := by decide
example : isPathInFolder "ab/b.md" "a" = false := by decide

/-! ### Settings and the alias processor (src/settings.ts, src/utils/alias-processor.ts) -/

/-- The plugin configuration. A compiled RegExp is represented by its test
function; a configured pattern whose compilation throws (caught by the
try/catch in the source) is represented as none. -/
structure Settings where
  ignoreRegexes : List (Option (String → Bool))
  timeoutSeconds : Nat
  caseSensitive : Bool
  autoCreateFrontmatter : Bool
  includeFolders : List String
  excludeFolders : List String
  fileExtensions : List String
  trackFolderRenames : Bool

/-- The regex compilation loop shared by handleRename and processAliases:
patterns that failed to compile are logged and skipped. -/
def compileRegexes (ps : List (Option (String → Bool))) : List (String → Bool) :=
  ps.filterMap id

/-- The value stored under the front-matter aliases key: absent, a list, or
some non-list value carried opaquely. -/
inductive AliasesVal where
  | missing : AliasesVal
  | arr : List String → AliasesVal
  | nonList : String → AliasesVal
deriving DecidableEq

/-- Whether the aliases value is an array (JS Array.isArray). -/
def isArr : AliasesVal → Bool
  | .arr _ => true
  | _ => false

/-- The string list of an array value, and the empty list otherwise. -/
def aliasesOf : AliasesVal → List String
  | .arr xs => xs
  | _ => []

/-- The case normalization used for alias comparison: the identity when
case-sensitive, lower-casing otherwise. -/
def normName (caseSensitive : Bool) (name : String) : String :=
  if caseSensitive then name else toLowerStr name

/-- The candidate filtering loop of processAliases: drop a queued name if it
matches any compiled ignore regex, or if it equals the file's current
basename under the active case policy; survivors form toAdd in order. -/
def filterQueue (s : Settings) (currentBasename : String) (queue : List String) : List String :=
  let regexes := compileRegexes s.ignoreRegexes
  queue.filter (fun name =>
    !(regexes.any (fun re => re name)) &&
    !((s.caseSensitive && name == currentBasename) ||
      (!s.caseSensitive && toLowerStr name == toLowerStr currentBasename)))

/-- The alias appending loop of the processFrontMatter mutator: for each name
in toAdd, append it to the alias list unless its normalization is already in
the existing set, extending the set as names are appended. -/
def pushAliasesAux (cs : Bool) : List String → List String → List String → List String
  | [], aliases, _ => aliases
  | name :: rest, aliases, existing =>
    let checkName := normName cs name
    if existing.contains checkName then pushAliasesAux cs rest aliases existing
    else pushAliasesAux cs rest (aliases ++ [name]) (existing ++ [checkName])

/-- The processFrontMatter mutator of processAliases: a non-array aliases
value is left untouched when auto-create is off and replaced by a fresh
empty list otherwise; then the surviving candidates are appended without
duplicating under the case policy. -/
def applyFrontMatter (cs autoCreate : Bool) (v : AliasesVal) (toAdd : List String) : AliasesVal :=
  match v with
  | .arr xs => .arr (pushAliasesAux cs toAdd xs (if cs then xs else xs.map toLowerStr))
  | other => if autoCreate then .arr (pushAliasesAux cs toAdd [] []) else other

/-- processAliases after the settlement target has been resolved: the final
aliases value of the file, given its current basename, current aliases value
and the queued candidate set (as an insertion-ordered list). When nothing
survives filtering the function returns before touching the front-matter. -/
def processAliasesFm (s : Settings) (currentBasename : String) (v : AliasesVal)
    (queue : List String) : AliasesVal :=
  let toAdd := filterQueue s currentBasename queue
  if toAdd.isEmpty then v
  else applyFrontMatter s.caseSensitive s.autoCreateFrontmatter v toAdd

/-- Full processAliases including target resolution: getFileByPath models
app.vault.getFileByPath, returning the file's basename and aliases value;
an unresolved path aborts silently (none). -/
def processAliases (s : Settings) (getFileByPath : String → Option (String × AliasesVal))
    (path : String) (queue : List String) : Option AliasesVal :=
  match getFileByPath path with
  | none => none
  | some (basename, v) => some (processAliasesFm s basename v queue)

/-! ### Lemmas about the alias merge -/

lemma existingSet_eq_map_norm (cs : Bool) (xs : List String) :
    (if cs then xs else xs.map toLowerStr) = xs.map (normName cs) := by
  cases cs
  · rfl
  · show xs = xs.map (normName true)
    have h : normName true = id := by
      funext n
      rfl
    rw [h, List.map_id]

lemma pushAliasesAux_append (cs : Bool) : ∀ (toAdd aliases existing : List String),
    ∃ extra, pushAliasesAux cs toAdd aliases existing = aliases ++ extra ∧
      ∀ x ∈ extra, x ∈ toAdd ∧ normName cs x ∉ existing
  | [], aliases, existing => ⟨[], by simp [pushAliasesAux]⟩
  | name :: rest, aliases, existing => by
    by_cases h : existing.contains (normName cs name) = true
    · obtain ⟨extra, he, hmem⟩ := pushAliasesAux_append cs rest aliases existing
      refine ⟨extra, ?_, ?_⟩
      · simp only [pushAliasesAux, h, if_true]
        exact he
      · intro x hx
        exact ⟨List.mem_cons_of_mem _ (hmem x hx).1, (hmem x hx).2⟩
    · have h' : existing.contains (normName cs name) = false := by simpa using h
      obtain ⟨extra, he, hmem⟩ :=
        pushAliasesAux_append cs rest (aliases ++ [name]) (existing ++ [normName cs name])
      refine ⟨name :: extra, ?_, ?_⟩
      · simp only [pushAliasesAux, h', Bool.false_eq_true, if_false]
        rw [he]
        simp
      · intro x hx
        rcases List.mem_cons.mp hx with rfl | hx
        · refine ⟨List.mem_cons_self _ _, fun hmem' => ?_⟩
          exact h (List.elem_iff.mpr hmem')
        · obtain ⟨h1, h2⟩ := hmem x hx
          exact ⟨List.mem_cons_of_mem _ h1, fun hin => h2 (List.mem_append_left _ hin)⟩

lemma pushAliasesAux_mem_norm (cs : Bool) : ∀ (toAdd aliases existing : List String),
    existing = aliases.map (normName cs) →
    ∀ z, (z ∈ (pushAliasesAux cs toAdd aliases existing).map (normName cs) ↔
      z ∈ existing ∨ z ∈ toAdd.map (normName cs))
  | [], aliases, existing, hinv, z => by
    simp [pushAliasesAux, hinv]
  | name :: rest, aliases, existing, hinv, z => by
    by_cases h : existing.contains (normName cs name) = true
    · have hmemn : normName cs name ∈ existing := List.elem_iff.mp h
      have ih := pushAliasesAux_mem_norm cs rest aliases existing hinv z
      simp only [pushAliasesAux, h, if_true]
      rw [ih]
      simp only [List.map_cons, List.mem_cons]
      constructor
      · rintro (hz | hz)
        · exact Or.inl hz
        · exact Or.inr (Or.inr hz)
      · rintro (hz | rfl | hz)
        · exact Or.inl hz
        · exact Or.inl hmemn
        · exact Or.inr hz
    · have h' : existing.contains (normName cs name) = false := by simpa using h
      have hinv' : existing ++ [normName cs name] = (aliases ++ [name]).map (normName cs) := by
        simp [hinv]
      have ih := pushAliasesAux_mem_norm cs rest (aliases ++ [name])
        (existing ++ [normName cs name]) hinv' z
      simp only [pushAliasesAux, h', Bool.false_eq_true, if_false]
      rw [ih]
      simp only [List.mem_append, List.mem_singleton, List.map_cons, List.mem_cons]
      tauto

/-- A candidate matching one of the regexes compiled at settlement time never
survives the filtering loop. -/
lemma matched_not_in_filterQueue (s : Settings) (base name : String) (queue : List String)
    (h : (compileRegexes s.ignoreRegexes).any (fun re => re name) = true) :
    name ∉ filterQueue s base queue := by
  intro hmem
  unfold filterQueue at hmem
  rw [List.mem_filter] at hmem
  have h2 := hmem.2
  simp only [Bool.and_eq_true, Bool.not_eq_true'] at h2
  rw [h] at h2
  exact absurd h2.1 (by simp)

/-! ### Claim theorems about the alias processor -/

/-- C3: for every settlement against a file whose front-matter already holds
an alias list, the existing entries are preserved in place (the result is
the old list with a suffix appended), every appended entry is a surviving
candidate whose normalization was not already present, and every surviving
candidate is represented in the final list under the active normalization. -/
theorem settle_preserves_existing_appends_new (s : Settings) (base : String)
    (xs : List String) (queue : List String) :
    ∃ extra,
      processAliasesFm s base (.arr xs) queue = .arr (xs ++ extra) ∧
      (∀ x ∈ extra, x ∈ filterQueue s base queue ∧
        normName s.caseSensitive x ∉ xs.map (normName s.caseSensitive)) ∧
      (∀ c ∈ filterQueue s base queue,
        normName s.caseSensitive c ∈ (xs ++ extra).map (normName s.caseSensitive)) := by
  unfold processAliasesFm
  by_cases hq : (filterQueue s base queue).isEmpty = true
  · have hnil : filterQueue s base queue = [] := List.isEmpty_iff.mp hq
    refine ⟨[], ?_, ?_, ?_⟩ <;> simp [hq, hnil]
  · have hq' : (filterQueue s base queue).isEmpty = false := by simpa using hq
    simp only [hq', Bool.false_eq_true, if_false, applyFrontMatter, existingSet_eq_map_norm]
    obtain ⟨extra, he, hmem⟩ := pushAliasesAux_append s.caseSensitive
      (filterQueue s base queue) xs (xs.map (normName s.caseSensitive))
    have hnorm := pushAliasesAux_mem_norm s.caseSensitive
      (filterQueue s base queue) xs (xs.map (normName s.caseSensitive)) rfl
    refine ⟨extra, by rw [he], hmem, ?_⟩
    intro c hc
    have hz := (hnorm (normName s.caseSensitive c)).mpr
      (Or.inr (List.mem_map_of_mem _ hc))
    rw [he] at hz
    exact hz

/-- Witness for C3 at concrete inputs: settling candidates "B" and "c"
against the list ["a", "b"] under case-insensitive policy appends only "c". -/
theorem settle_preserves_existing_appends_new_witness :
    ∃ extra,
      processAliasesFm ⟨[], 5, false, true, [], [], ["md"], false⟩ "base"
          (.arr ["a", "b"]) ["B", "c"] = .arr (["a", "b"] ++ extra) ∧
      (∀ x ∈ extra, x ∈ filterQueue ⟨[], 5, false, true, [], [], ["md"], false⟩ "base" ["B", "c"] ∧
        normName false x ∉ ["a", "b"].map (normName false)) ∧
      (∀ c ∈ filterQueue ⟨[], 5, false, true, [], [], ["md"], false⟩ "base" ["B", "c"],
        normName false c ∈ (["a", "b"] ++ extra).map (normName false)) :=
  settle_preserves_existing_appends_new _ "base" ["a", "b"] ["B", "c"]

/-- C5: with auto-create disabled, a settlement against a file whose aliases
value is not a list (absent or of the wrong shape) leaves the front-matter
unchanged; the non-list and absent cases behave identically. -/
theorem no_autocreate_no_write (s : Settings) (base : String) (v : AliasesVal)
    (queue : List String)
    (hauto : s.autoCreateFrontmatter = false) (hv : isArr v = false) :
    processAliasesFm s base v queue = v := by
  simp only [processAliasesFm]
  split
  · rfl
  · cases v with
    | missing => simp [applyFrontMatter, hauto]
    | arr xs => simp [isArr] at hv
    | nonList p => simp [applyFrontMatter, hauto]

/-- Witness for C5: a string-valued aliases key survives settlement untouched
when auto-create is off. -/
theorem no_autocreate_no_write_witness :
    processAliasesFm ⟨[], 5, false, false, [], [], ["md"], false⟩ "x"
        (.nonList "text") ["old"] = .nonList "text" :=
  no_autocreate_no_write _ "x" (.nonList "text") ["old"] rfl rfl

/-- C10: with auto-create enabled and a non-empty surviving candidate set, a
settlement against a non-list aliases value replaces it with a freshly
created list containing only surviving candidates (each represented under
the active normalization); the prior value is discarded: the result does not
depend on it and coincides with the result for an absent key. -/
theorem settle_nonlist_replaced (s : Settings) (base payload payload2 : String)
    (queue : List String)
    (hauto : s.autoCreateFrontmatter = true)
    (hne : filterQueue s base queue ≠ []) :
    ∃ ys, processAliasesFm s base (.nonList payload) queue = .arr ys ∧
      (∀ x ∈ ys, x ∈ filterQueue s base queue) ∧
      (∀ c ∈ filterQueue s base queue,
        normName s.caseSensitive c ∈ ys.map (normName s.caseSensitive)) ∧
      processAliasesFm s base (.nonList payload) queue
        = processAliasesFm s base (.nonList payload2) queue ∧
      processAliasesFm s base (.nonList payload) queue
        = processAliasesFm s base .missing queue := by
  have hq' : (filterQueue s base queue).isEmpty = false := by
    simpa [List.isEmpty_iff] using hne
  have key : ∀ w : AliasesVal, isArr w = false →
      processAliasesFm s base w queue
        = .arr (pushAliasesAux s.caseSensitive (filterQueue s base queue) [] []) := by
    intro w hw
    cases w with
    | missing => simp [processAliasesFm, hq', applyFrontMatter, hauto]
    | arr xs => simp [isArr] at hw
    | nonList p => simp [processAliasesFm, hq', applyFrontMatter, hauto]
  obtain ⟨extra, he, hmem⟩ := pushAliasesAux_append s.caseSensitive
    (filterQueue s base queue) [] []
  have hnorm := pushAliasesAux_mem_norm s.caseSensitive
    (filterQueue s base queue) [] [] rfl
  refine ⟨pushAliasesAux s.caseSensitive (filterQueue s base queue) [] [],
    key _ rfl, ?_, ?_, ?_, ?_⟩
  · intro x hx
    rw [he] at hx
    exact (hmem x (by simpa using hx)).1
  · intro c hc
    exact (hnorm (normName s.caseSensitive c)).mpr
      (Or.inr (List.mem_map_of_mem _ hc))
  · rw [key (.nonList payload) rfl, key (.nonList payload2) rfl]
  · rw [key (.nonList payload) rfl, key .missing rfl]

/-- Witness for C10: a string-valued aliases key is replaced by the list of
surviving candidates when auto-create is on. -/
theorem settle_nonlist_replaced_witness :
    ∃ ys, processAliasesFm ⟨[], 5, false, true, [], [], ["md"], false⟩ "base"
          (.nonList "text") ["old"] = .arr ys ∧
      (∀ x ∈ ys, x ∈ filterQueue ⟨[], 5, false, true, [], [], ["md"], false⟩ "base" ["old"]) ∧
      (∀ c ∈ filterQueue ⟨[], 5, false, true, [], [], ["md"], false⟩ "base" ["old"],
        normName false c ∈ ys.map (normName false)) ∧
      processAliasesFm ⟨[], 5, false, true, [], [], ["md"], false⟩ "base"
          (.nonList "text") ["old"]
        = processAliasesFm ⟨[], 5, false, true, [], [], ["md"], false⟩ "base"
          (.nonList "other") ["old"] ∧
      processAliasesFm ⟨[], 5, false, true, [], [], ["md"], false⟩ "base"
          (.nonList "text") ["old"]
        = processAliasesFm ⟨[], 5, false, true, [], [], ["md"], false⟩ "base"
          .missing ["old"] :=
  settle_nonlist_replaced _ "base" "text" "other" ["old"] rfl (by decide)

/-! ### The debounce coordinator and handleRename (src/main.ts) -/

/-- Association-list lookup, JS Map.get: the value under the first matching
key. -/
def lookupA {K V : Type} [BEq K] : List (K × V) → K → Option V
  | [], _ => none
  | (k2, v) :: rest, k => if k2 == k then some v else lookupA rest k

/-- Association-list removal, JS Map.delete: drops the entry under the key. -/
def eraseA {K V : Type} [BEq K] : List (K × V) → K → List (K × V)
  | [], _ => []
  | (k2, v) :: rest, k => if k2 == k then rest else (k2, v) :: eraseA rest k

/-- Association-list update, JS Map.set: replaces the value under an existing
key in place, appending a fresh entry otherwise. -/
def setA {K V : Type} [BEq K] : List (K × V) → K → V → List (K × V)
  | [], k, v => [(k, v)]
  | (k2, v2) :: rest, k, v => if k2 == k then (k, v) :: rest else (k2, v2) :: setA rest k v

/-- JS Set.prototype.add on an insertion-ordered duplicate-free list. -/
def setAdd (l : List String) (x : String) : List String :=
  if l.contains x then l else l ++ [x]

/-- A debounce entry object: the queued candidate set (insertion-ordered,
duplicate-free), the outstanding timer id (none models a null timeoutId),
and the file's current path. -/
structure DebEntry where
  queue : List String
  timeoutId : Option Nat
  currentPath : String
deriving DecidableEq

/-- The coordinator state: the heap of entry objects keyed by object
identity (the debounceMap and the timer callbacks alias the same mutable
entry object), the debounceMap from a path to an entry id, the armed timers
as (timerId, deadline, entryId) triples, fresh id counters, and the log of
settlement invocations (path, queue) in firing order. -/
structure DebState where
  heap : List (Nat × DebEntry)
  debounceMap : List (String × Nat)
  timers : List (Nat × Nat × Nat)
  nextEntryId : Nat
  nextTimerId : Nat
  settled : List (String × List String)
deriving DecidableEq

def emptyState : DebState := ⟨[], [], [], 0, 0, []⟩

/-- Mutate the entry object with the given identity in place. -/
def heapUpdate : List (Nat × DebEntry) → Nat → (DebEntry → DebEntry) → List (Nat × DebEntry)
  | [], _, _ => []
  | (k2, v) :: tl, eid, f =>
    if k2 == eid then (k2, f v) :: heapUpdate tl eid f
    else (k2, v) :: heapUpdate tl eid f

/-- The debounce section of handleRename (src/main.ts lines 120-141), run
once a candidate toQueue has been accepted: look the map up under oldPath
(re-keying the found entry object to the new path) or create a fresh entry;
add the candidate to the entry's queue set; clear an outstanding timeout if
any; arm a fresh timeout with deadline now + timeoutMs against the same
entry object; store the entry in the map under the new path. -/
def enqueueStep (timeoutMs now : Nat) (st : DebState) (oldPath newPath cand : String) :
    DebState :=
  let found := lookupA st.debounceMap oldPath
  let st1eid : DebState × Nat :=
    match found with
    | some eid =>
      ({ st with debounceMap := eraseA st.debounceMap oldPath,
                 heap := heapUpdate st.heap eid (fun e => { e with currentPath := newPath }) },
       eid)
    | none =>
      let eid := st.nextEntryId
      ({ st with heap := st.heap ++ [(eid, ⟨[], none, newPath⟩)], nextEntryId := eid + 1 },
       eid)
  let st1 := st1eid.1
  let eid := st1eid.2
  let st2 := { st1 with
    heap := heapUpdate st1.heap eid (fun e => { e with queue := setAdd e.queue cand }) }
  let oldTid := (lookupA st2.heap eid).bind (fun e => e.timeoutId)
  let st3 :=
    match oldTid with
    | some tid => { st2 with timers := st2.timers.filter (fun tr => tr.1 != tid) }
    | none => st2
  let tid := st3.nextTimerId
  let st4 := { st3 with
    timers := st3.timers ++ [(tid, now + timeoutMs, eid)],
    nextTimerId := tid + 1,
    heap := heapUpdate st3.heap eid (fun e => { e with timeoutId := some tid }) }
  { st4 with debounceMap := setA st4.debounceMap newPath eid }

/-- The body of a fired setTimeout callback: invoke settlement with the
entry object's current path and queue, then delete the map entry under that
current path; the fired timer itself is spent. -/
def fireTimer (st : DebState) (tid eid : Nat) : DebState :=
  let st1 := { st with timers := st.timers.filter (fun tr => tr.1 != tid) }
  match lookupA st1.heap eid with
  | none => st1
  | some e =>
    { st1 with settled := st1.settled ++ [(e.currentPath, e.queue)],
               debounceMap := eraseA st1.debounceMap e.currentPath }

/-- Whether timer a fires before timer b: earlier deadline, ties broken by
arming order (smaller timer id). -/
def betterTimer (a b : Nat × Nat × Nat) : Bool :=
  a.2.1 < b.2.1 || (a.2.1 == b.2.1 && a.1 < b.1)

/-- The due timer that fires next at the given instant, if any. -/
def pickDue (now : Nat) : List (Nat × Nat × Nat) → Option (Nat × Nat × Nat)
  | [] => none
  | tr :: rest =>
    let best := pickDue now rest
    if tr.2.1 ≤ now then
      match best with
      | none => some tr
      | some b => if betterTimer tr b then some tr else some b
    else best

/-- The next timer to fire regardless of time, if any. -/
def pickMin : List (Nat × Nat × Nat) → Option (Nat × Nat × Nat)
  | [] => none
  | tr :: rest =>
    match pickMin rest with
    | none => some tr
    | some b => if betterTimer tr b then some tr else some b

/-- Fire every timer due at the given instant, in firing order; the fuel is
the number of armed timers, enough since each firing spends one timer. -/
def fireDueAux : Nat → Nat → DebState → DebState
  | 0, _, st => st
  | fuel + 1, now, st =>
    match pickDue now st.timers with
    | none => st
    | some (tid, _, eid) => fireDueAux fuel now (fireTimer st tid eid)

def fireDue (now : Nat) (st : DebState) : DebState :=
  fireDueAux st.timers.length now st

/-- Fire every remaining timer in order (letting time run to the end). -/
def drainAux : Nat → DebState → DebState
  | 0, st => st
  | fuel + 1, st =>
    match pickMin st.timers with
    | none => st
    | some (tid, _, eid) => drainAux fuel (fireTimer st tid eid)

def drain (st : DebState) : DebState :=
  drainAux st.timers.length st

/-- A rename event's new-file handle with the fields of the host TFile used
by handleRename. -/
structure TFileArg where
  path : String
  basename : String
  extension : String

/-- The name-change classification of handleRename: old and new basenames
differ, compared case-sensitively or case-insensitively per the setting. -/
def isNameChangeB (s : Settings) (oldBasename newBasename : String) : Bool :=
  if s.caseSensitive then oldBasename != newBasename
  else toLowerStr oldBasename != toLowerStr newBasename

/-- The folder-change classification of handleRename: immediate parent
names differ and the event is not a name change. -/
def isFolderChangeB (oldParent newParent : String) (isNameChange : Bool) : Bool :=
  oldParent != newParent && !isNameChange

/-- handleRename from src/main.ts for a file event: reject untracked
extensions; classify the event; apply the include/exclude folder scope
checks to name changes only; compile the ignore regexes; select the
candidate (old basename for a name change, old immediate parent for a
folder change when tracking is enabled, subject to the ignore regexes and
the root-level guard); finally run the debounce enqueue step. -/
def handleRename (s : Settings) (now : Nat) (st : DebState) (newFile : TFileArg)
    (oldPath : String) : DebState :=
  if !(s.fileExtensions.contains newFile.extension) then st
  else
    let oldBasename := getBasename oldPath
    let newBasename := newFile.basename
    let oldParent := getImmediateParentName oldPath
    let newParent := getImmediateParentName newFile.path
    let isNameChange := isNameChangeB s oldBasename newBasename
    let isFolderChange := isFolderChangeB oldParent newParent isNameChange
    if !isNameChange && !isFolderChange then st
    else
      let path := newFile.path
      if isNameChange && !s.includeFolders.isEmpty &&
          !(s.includeFolders.any (fun f => isPathInFolder path f)) then st
      else if isNameChange && s.excludeFolders.any (fun f => isPathInFolder path f) then st
      else
        let regexes := compileRegexes s.ignoreRegexes
        let toQueue : Option String :=
          if isNameChange then
            if regexes.any (fun re => re oldBasename || re newBasename) then none
            else some oldBasename
          else if isFolderChange && s.trackFolderRenames then
            if oldParent == "" || newParent == "" then none
            else if regexes.any (fun re => re oldParent || re newParent) then none
            else some oldParent
          else none
        match toQueue with
        | none => st
        | some cand => enqueueStep (s.timeoutSeconds * 1000) now st oldPath path cand

/-! ### Rename chains and the debounce property -/

/-- An accepted enqueue event of the coordinator. -/
structure EnqEv where
  time : Nat
  oldPath : String
  newPath : String
  cand : String

/-- Run the coordinator over a sequence of accepted enqueue events in time
order: before each event, the timers due at its time fire. -/
def runEnq (timeoutMs : Nat) (st : DebState) : List EnqEv → DebState
  | [] => st
  | e :: rest =>
    runEnq timeoutMs (enqueueStep timeoutMs e.time (fireDue e.time st) e.oldPath e.newPath e.cand) rest

/-- The events of a rename chain of one file: each step holds the event
time, the new path and the accepted candidate; each event's old path is the
previous event's new path. -/
def chainEnq : String → List (Nat × String × String) → List EnqEv
  | _, [] => []
  | p, (t, pnew, c) :: rest => ⟨t, p, pnew, c⟩ :: chainEnq pnew rest

/-- Each listed event happens strictly before the timer deadline armed by
the previous event. -/
def timesOk (m : Nat) : Nat → List (Nat × String × String) → Bool
  | _, [] => true
  | tprev, (t, _, _) :: rest => decide (t < tprev + m) && timesOk m t rest

/-- The coordinator state in the middle of a debounced rename chain: a
single entry object, keyed in the map by its current path, with a single
armed timer. -/
def chainInv (m : Nat) (q : List String) (k : Nat) (p : String) (t : Nat) : DebState :=
  { heap := [(0, ⟨q, some k, p⟩)],
    debounceMap := [(p, 0)],
    timers := [(k, t + m, 0)],
    nextEntryId := 1,
    nextTimerId := k + 1,
    settled := [] }

lemma fireDue_chainInv (m : Nat) (q : List String) (k : Nat) (p : String) (t t2 : Nat)
    (hlt : t2 < t + m) :
    fireDue t2 (chainInv m q k p t) = chainInv m q k p t := by
  have h : ¬ (t + m ≤ t2) := by omega
  simp [fireDue, fireDueAux, chainInv, pickDue, h]

lemma enqueueStep_chainInv (m : Nat) (q : List String) (k : Nat) (p : String) (t t2 : Nat)
    (p2 c : String) (hlt : t2 < t + m) :
    enqueueStep m t2 (fireDue t2 (chainInv m q k p t)) p p2 c
      = chainInv m (setAdd q c) (k + 1) p2 t2 := by
  rw [fireDue_chainInv m q k p t t2 hlt]
  simp [enqueueStep, chainInv, lookupA, eraseA, setA, heapUpdate]

lemma enqueueStep_empty (m t : Nat) (p0 p1 c : String) :
    enqueueStep m t emptyState p0 p1 c = chainInv m [c] 0 p1 t := by
  simp [enqueueStep, emptyState, chainInv, lookupA, setA, heapUpdate, setAdd]

lemma drain_chainInv (m : Nat) (q : List String) (k : Nat) (p : String) (t : Nat) :
    (drain (chainInv m q k p t)).settled = [(p, q)] := by
  simp [drain, drainAux, chainInv, pickMin, fireTimer, lookupA, eraseA]

lemma runEnq_chainInv (m : Nat) :
    ∀ (steps : List (Nat × String × String)) (q : List String) (k : Nat) (p : String) (t : Nat),
    timesOk m t steps = true →
    runEnq m (chainInv m q k p t) (chainEnq p steps)
      = chainInv m (steps.foldl (fun acc s => setAdd acc s.2.2) q)
          (k + steps.length)
          ((steps.getLast?.map (fun s => s.2.1)).getD p)
          ((steps.getLast?.map (fun s => s.1)).getD t)
  | [], q, k, p, t, _ => by simp [chainEnq, runEnq]
  | (t2, p2, c) :: rest, q, k, p, t, ht => by
    simp only [timesOk, Bool.and_eq_true, decide_eq_true_eq] at ht
    have hstep := enqueueStep_chainInv m q k p t t2 p2 c ht.1
    have ih := runEnq_chainInv m rest (setAdd q c) (k + 1) p2 t2 ht.2
    simp only [chainEnq, runEnq]
    rw [hstep, ih]
    cases rest with
    | nil => simp
    | cons r rs =>
      simp only [List.foldl_cons, List.getLast?_cons_cons, List.length_cons]
      have harith : k + 1 + (rs.length + 1) = k + (rs.length + 1 + 1) := by omega
      rw [harith, List.getLast?_eq_getLast_of_ne_nil (List.cons_ne_nil r rs)]
      simp

/-- C1: for any rename chain of one file with at least two accepted renames,
each arriving strictly before the deadline armed by the previous one,
running the coordinator and letting the remaining timers fire produces
exactly one settlement invocation, and it is keyed at the final path (the
newPath of the last rename); no settlement fires for any intermediate
path. -/
theorem debounce_chain_single_settlement (m t1 : Nat) (p0 p1 c1 : String)
    (rest : List (Nat × String × String))
    (_hne : rest ≠ []) (ht : timesOk m t1 rest = true) :
    ∃ qf, (drain (runEnq m emptyState (chainEnq p0 ((t1, p1, c1) :: rest)))).settled
      = [((rest.getLast?.map (fun s => s.2.1)).getD p1, qf)] := by
  have h0 : runEnq m emptyState (chainEnq p0 ((t1, p1, c1) :: rest))
      = runEnq m (chainInv m [c1] 0 p1 t1) (chainEnq p1 rest) := by
    simp only [chainEnq, runEnq]
    rw [show fireDue t1 emptyState = emptyState from rfl, enqueueStep_empty]
  rw [h0, runEnq_chainInv m rest [c1] 0 p1 t1 ht, drain_chainInv]
  exact ⟨_, rfl⟩

/-- Witness for C1: the chain a.md to b.md at 0ms, b.md to c.md at 1000ms
with a 5000ms debounce settles exactly once, at c.md. -/
theorem debounce_chain_single_settlement_witness :
    ∃ qf, (drain (runEnq 5000 emptyState
        (chainEnq "a.md" [(0, "b.md", "a"), (1000, "c.md", "b")]))).settled
      = [("c.md", qf)] :=
  debounce_chain_single_settlement 5000 0 "a.md" "b.md" "a" [(1000, "c.md", "b")]
    (by decide) (by decide)

/-! ### Association-list lemmas and the enqueue lookup behaviour -/

lemma lookupA_setA_self {K V : Type} [BEq K] [LawfulBEq K] :
    ∀ (m : List (K × V)) (k : K) (v : V), lookupA (setA m k v) k = some v
  | [], k, v => by simp [setA, lookupA]
  | (k2, v2) :: rest, k, v => by
    by_cases hk : (k2 == k) = true
    · simp [setA, lookupA, hk]
    · have hk' : (k2 == k) = false := by simpa using hk
      simp [setA, lookupA, hk', lookupA_setA_self rest k v]

lemma lookupA_setA_ne {K V : Type} [BEq K] [LawfulBEq K] :
    ∀ (m : List (K × V)) (k k2 : K) (v : V), k2 ≠ k →
    lookupA (setA m k v) k2 = lookupA m k2
  | [], k, k2, v, hne => by
    have hk : (k == k2) = false := by
      rw [beq_eq_false_iff_ne]
      exact Ne.symm hne
    simp [setA, lookupA, hk]
  | (k3, v3) :: rest, k, k2, v, hne => by
    by_cases hk : (k3 == k) = true
    · have hk3 : k3 = k := by simpa using hk
      subst hk3
      have h1 : (k3 == k2) = false := by
        rw [beq_eq_false_iff_ne]
        exact Ne.symm hne
      simp [setA, lookupA, hk, h1]
    · have hk' : (k3 == k) = false := by simpa using hk
      by_cases h2 : (k3 == k2) = true
      · simp [setA, lookupA, hk', h2]
      · have h2' : (k3 == k2) = false := by simpa using h2
        simp [setA, lookupA, hk', h2', lookupA_setA_ne rest k k2 v hne]

lemma lookupA_eq_none {K V : Type} [BEq K] [LawfulBEq K] :
    ∀ (m : List (K × V)) (k : K), k ∉ m.map Prod.fst → lookupA m k = none
  | [], _, _ => rfl
  | (k2, v2) :: rest, k, h => by
    simp only [List.map_cons, List.mem_cons] at h
    push_neg at h
    have hk : (k2 == k) = false := by
      rw [beq_eq_false_iff_ne]
      exact Ne.symm h.1
    simp [lookupA, hk, lookupA_eq_none rest k h.2]

lemma lookupA_eraseA_self {K V : Type} [BEq K] [LawfulBEq K] :
    ∀ (m : List (K × V)) (k : K), (m.map Prod.fst).Nodup →
    lookupA (eraseA m k) k = none
  | [], _, _ => rfl
  | (k2, v2) :: rest, k, hnodup => by
    simp only [List.map_cons, List.nodup_cons] at hnodup
    by_cases hk : (k2 == k) = true
    · have hk2 : k2 = k := by simpa using hk
      subst hk2
      simp only [eraseA, hk, if_true]
      exact lookupA_eq_none rest k2 hnodup.1
    · have hk' : (k2 == k) = false := by simpa using hk
      simp [eraseA, lookupA, hk', lookupA_eraseA_self rest k hnodup.2]

lemma lookupA_heapUpdate_self :
    ∀ (h : List (Nat × DebEntry)) (eid : Nat) (f : DebEntry → DebEntry),
    lookupA (heapUpdate h eid f) eid = (lookupA h eid).map f
  | [], _, _ => rfl
  | (k2, v) :: tl, eid, f => by
    by_cases hk : (k2 == eid) = true
    · simp [heapUpdate, lookupA, hk]
    · have hk' : (k2 == eid) = false := by simpa using hk
      simpa [heapUpdate, lookupA, hk'] using lookupA_heapUpdate_self tl eid f

lemma heapUpdate_length :
    ∀ (h : List (Nat × DebEntry)) (eid : Nat) (f : DebEntry → DebEntry),
    (heapUpdate h eid f).length = h.length
  | [], _, _ => rfl
  | (k2, v) :: tl, eid, f => by
    by_cases hk : (k2 == eid) = true
    · simp [heapUpdate, hk, heapUpdate_length tl eid f]
    · have hk' : (k2 == eid) = false := by simpa using hk
      simp [heapUpdate, hk', heapUpdate_length tl eid f]

/-- C2 counterexample: with a pending entry keyed under newPath only (the
file was renamed B to C without an accepted enqueue, then C back to B), the
enqueue step fails to find it: the outstanding timer is not cancelled, a
second entry object is created, and draining the state produces two
settlement invocations. -/
theorem enqueue_newPath_lookup_cx :
    (enqueueStep 5000 10 ⟨[(0, ⟨["a"], some 0, "B"⟩)], [("B", 0)], [(0, 100, 0)], 1, 1, []⟩
        "C" "B" "c").timers.length = 2 ∧
    (enqueueStep 5000 10 ⟨[(0, ⟨["a"], some 0, "B"⟩)], [("B", 0)], [(0, 100, 0)], 1, 1, []⟩
        "C" "B" "c").heap.length = 2 ∧
    (drain (enqueueStep 5000 10 ⟨[(0, ⟨["a"], some 0, "B"⟩)], [("B", 0)], [(0, 100, 0)], 1, 1, []⟩
        "C" "B" "c")).settled.length = 2 := by decide

/-- C2 (amended): the enqueue step looks the pending map up under oldPath
only; when an entry is found there, its outstanding timer is cancelled, the
entry object is re-keyed under newPath with the old key removed, and no
second entry object is created; a rename whose oldPath is the entry's
current key therefore never duplicates the pending entry (while an entry
pending under newPath only is not found, as the counterexample shows). -/
theorem enqueue_oldPath_rekey (m now : Nat) (st : DebState)
    (oldPath newPath cand : String) (eid : Nat) (e : DebEntry) (tid : Nat)
    (hfind : lookupA st.debounceMap oldPath = some eid)
    (hheap : lookupA st.heap eid = some e)
    (htid : e.timeoutId = some tid)
    (htlt : tid ≠ st.nextTimerId)
    (hnodup : (st.debounceMap.map Prod.fst).Nodup)
    (hne2 : oldPath ≠ newPath) :
    (enqueueStep m now st oldPath newPath cand).heap.length = st.heap.length ∧
    lookupA (enqueueStep m now st oldPath newPath cand).debounceMap newPath = some eid ∧
    lookupA (enqueueStep m now st oldPath newPath cand).debounceMap oldPath = none ∧
    ((enqueueStep m now st oldPath newPath cand).timers.map
        (fun tr => tr.1)).contains tid = false := by
  have hbind : (lookupA (heapUpdate (heapUpdate st.heap eid
        (fun e => { e with currentPath := newPath })) eid
        (fun e => { e with queue := setAdd e.queue cand })) eid).bind
      (fun e => e.timeoutId) = some tid := by
    rw [lookupA_heapUpdate_self, lookupA_heapUpdate_self, hheap]
    simp [htid]
  simp only [enqueueStep, hfind, hbind]
  refine ⟨?_, ?_, ?_, ?_⟩
  · simp [heapUpdate_length]
  · exact lookupA_setA_self _ _ _
  · rw [lookupA_setA_ne _ _ _ _ hne2]
    exact lookupA_eraseA_self _ _ hnodup
  · refine Bool.eq_false_iff.mpr (fun hc => ?_)
    have hmem := List.elem_iff.mp hc
    simp only [List.map_append, List.mem_append, List.map_cons, List.map_nil,
      List.mem_singleton, List.mem_map] at hmem
    rcases hmem with ⟨tr, htr, heq⟩ | heq
    · have := List.mem_filter.mp htr
      rw [heq] at this
      simp at this
    · exact htlt heq

/-- Witness for the C2 amended theorem at a concrete single-entry state. -/
theorem enqueue_oldPath_rekey_witness :
    (enqueueStep 5000 10 ⟨[(0, ⟨["a"], some 0, "B"⟩)], [("B", 0)], [(0, 100, 0)], 1, 1, []⟩
        "B" "C" "c").heap.length = 1 ∧
    lookupA (enqueueStep 5000 10
        ⟨[(0, ⟨["a"], some 0, "B"⟩)], [("B", 0)], [(0, 100, 0)], 1, 1, []⟩
        "B" "C" "c").debounceMap "C" = some 0 ∧
    lookupA (enqueueStep 5000 10
        ⟨[(0, ⟨["a"], some 0, "B"⟩)], [("B", 0)], [(0, 100, 0)], 1, 1, []⟩
        "B" "C" "c").debounceMap "B" = none ∧
    ((enqueueStep 5000 10 ⟨[(0, ⟨["a"], some 0, "B"⟩)], [("B", 0)], [(0, 100, 0)], 1, 1, []⟩
        "B" "C" "c").timers.map (fun tr => tr.1)).contains 0 = false :=
  enqueue_oldPath_rekey 5000 10 _ "B" "C" "c" 0 ⟨["a"], some 0, "B"⟩ 0
    (by decide) (by decide) (by decide) (by decide) (by decide) (by decide)

/-! ### Classification, scope and ignore-pattern claims -/

/-- C6 counterexample: renaming a/note.md to b/Note.md (basenames differing
only in case) with case-sensitivity off and folder tracking on is not
discarded: it is classified as a folder change and enqueues the old parent
name "a". -/
theorem case_only_rename_folder_change_cx :
    (handleRename ⟨[], 5, false, true, [], [], ["md"], true⟩ 0 emptyState
        ⟨"b/Note.md", "Note", "md"⟩ "a/note.md")
      = enqueueStep 5000 0 emptyState "a/note.md" "b/Note.md" "a" ∧
    (handleRename ⟨[], 5, false, true, [], [], ["md"], true⟩ 0 emptyState
        ⟨"b/Note.md", "Note", "md"⟩ "a/note.md") ≠ emptyState ∧
    (handleRename ⟨[], 5, false, true, [], [], ["md"], true⟩ 0 emptyState
        ⟨"b/Note.md", "Note", "md"⟩ "a/note.md").heap
      = [(0, ⟨["a"], some 0, "b/Note.md"⟩)] := by decide

/-- C6 (amended): for a rename event of a tracked extension whose old and
new basenames differ only in letter case and whose immediate parent name is
unchanged, and which passes the scope and ignore filters: with
case-sensitivity off the event is classified as a no-op and nothing is
enqueued; with case-sensitivity on it is classified as a name change whose
enqueued candidate is the old basename. -/
theorem case_only_rename_classification (s : Settings) (now : Nat) (st : DebState)
    (f : TFileArg) (oldPath : String)
    (hext : s.fileExtensions.contains f.extension = true)
    (hlow : toLowerStr (getBasename oldPath) = toLowerStr f.basename)
    (hne : getBasename oldPath ≠ f.basename)
    (hpar : getImmediateParentName oldPath = getImmediateParentName f.path)
    (hinc : s.includeFolders = [] ∨
      s.includeFolders.any (fun fo => isPathInFolder f.path fo) = true)
    (hexc : s.excludeFolders.any (fun fo => isPathInFolder f.path fo) = false)
    (hreg : (compileRegexes s.ignoreRegexes).any
        (fun re => re (getBasename oldPath) || re f.basename) = false) :
    handleRename s now st f oldPath
      = if s.caseSensitive then
          enqueueStep (s.timeoutSeconds * 1000) now st oldPath f.path (getBasename oldPath)
        else st := by
  cases hcs : s.caseSensitive with
  | false =>
    have hnc : isNameChangeB s (getBasename oldPath) f.basename = false := by
      simp [isNameChangeB, hcs, hlow]
    have hextm : f.extension ∈ s.fileExtensions := List.elem_iff.mp hext
    simp [handleRename, hextm, hnc, isFolderChangeB, hpar]
  | true =>
    have hnc : isNameChangeB s (getBasename oldPath) f.basename = true := by
      simp [isNameChangeB, hcs, hne]
    have hfc : isFolderChangeB (getImmediateParentName oldPath)
        (getImmediateParentName f.path) true = false := by
      simp [isFolderChangeB]
    have hincb : (s.includeFolders.isEmpty = true) ∨
        s.includeFolders.any (fun fo => isPathInFolder f.path fo) = true := by
      rcases hinc with h | h
      · exact Or.inl (by simp [h])
      · exact Or.inr h
    have hextm : f.extension ∈ s.fileExtensions := List.elem_iff.mp hext
    rcases hincb with hincb | hincb
    · simp [handleRename, hextm, hnc, hfc, hincb, hexc, hreg]
    · simp [handleRename, hextm, hnc, hfc, hincb, hexc, hreg]

/-- Witness for the C6 amended theorem: renaming note.md to Note.md with
case-sensitivity on enqueues the candidate "note". -/
theorem case_only_rename_classification_witness :
    handleRename ⟨[], 5, true, true, [], [], ["md"], false⟩ 0 emptyState
        ⟨"Note.md", "Note", "md"⟩ "note.md"
      = if true then enqueueStep 5000 0 emptyState "note.md" "Note.md" "note"
        else emptyState :=
  case_only_rename_classification ⟨[], 5, true, true, [], [], ["md"], false⟩ 0 emptyState
    ⟨"Note.md", "Note", "md"⟩ "note.md" (by decide) (by decide) (by decide) (by decide)
    (Or.inl rfl) (by decide) (by decide)

/-- C8: the include/exclude scope check applies only to name-change events:
an event classified as a folder change (tracking on, both parents
non-empty, ignore regexes silent) is enqueued whatever the include and
exclude folder lists hold, while a name-change event that fails the include
check or hits the exclude check is dropped. -/
theorem scope_filter_only_name_changes (s : Settings) (now : Nat) (st : DebState)
    (f : TFileArg) (oldPath : String) :
    (s.fileExtensions.contains f.extension = true →
     isNameChangeB s (getBasename oldPath) f.basename = false →
     getImmediateParentName oldPath ≠ getImmediateParentName f.path →
     s.trackFolderRenames = true →
     getImmediateParentName oldPath ≠ "" →
     getImmediateParentName f.path ≠ "" →
     (compileRegexes s.ignoreRegexes).any
        (fun re => re (getImmediateParentName oldPath)
          || re (getImmediateParentName f.path)) = false →
     handleRename s now st f oldPath
       = enqueueStep (s.timeoutSeconds * 1000) now st oldPath f.path
           (getImmediateParentName oldPath)) ∧
    (s.fileExtensions.contains f.extension = true →
     isNameChangeB s (getBasename oldPath) f.basename = true →
     (s.includeFolders ≠ [] ∧
        s.includeFolders.any (fun fo => isPathInFolder f.path fo) = false
      ∨ s.excludeFolders.any (fun fo => isPathInFolder f.path fo) = true) →
     handleRename s now st f oldPath = st) := by
  constructor
  · intro hext hnc hpar htrack hp1 hp2 hreg
    have hfc : isFolderChangeB (getImmediateParentName oldPath)
        (getImmediateParentName f.path) false = true := by
      simp [isFolderChangeB, hpar]
    have hp1' : (getImmediateParentName oldPath == "") = false := by
      rw [beq_eq_false_iff_ne]
      exact hp1
    have hp2' : (getImmediateParentName f.path == "") = false := by
      rw [beq_eq_false_iff_ne]
      exact hp2
    have hextm : f.extension ∈ s.fileExtensions := List.elem_iff.mp hext
    simp [handleRename, hextm, hnc, hfc, htrack, hp1', hp2', hreg]
  · intro hext hnc hscope
    have hextm : f.extension ∈ s.fileExtensions := List.elem_iff.mp hext
    rcases hscope with ⟨hne, hfail⟩ | hhit
    · have hie : s.includeFolders.isEmpty = false := by
        rw [Bool.eq_false_iff]
        intro hI
        exact hne (List.isEmpty_iff.mp hI)
      simp [handleRename, hextm, hnc, hie, hfail]
    · by_cases hic : (s.includeFolders.isEmpty = false ∧
          s.includeFolders.any (fun fo => isPathInFolder f.path fo) = false)
      · simp [handleRename, hextm, hnc, hic.1, hic.2]
      · push_neg at hic
        by_cases hie : s.includeFolders.isEmpty = false
        · have hany : s.includeFolders.any (fun fo => isPathInFolder f.path fo) = true := by
            have := hic hie
            rcases h : s.includeFolders.any (fun fo => isPathInFolder f.path fo) with _ | _
            · exact absurd h this
            · rfl
          simp [handleRename, hextm, hnc, hie, hany, hhit]
        · have hie' : s.includeFolders.isEmpty = true := by
            rcases h : s.includeFolders.isEmpty with _ | _
            · exact absurd h hie
            · rfl
          simp [handleRename, hextm, hnc, hie', hhit]

/-- Witness for C8: a folder change into an excluded folder is enqueued
anyway (scope bypassed). -/
theorem scope_filter_only_name_changes_witness :
    handleRename ⟨[], 5, false, true, [], ["b"], ["md"], true⟩ 0 emptyState
        ⟨"b/x.md", "x", "md"⟩ "a/x.md"
      = enqueueStep 5000 0 emptyState "a/x.md" "b/x.md" "a" :=
  (scope_filter_only_name_changes ⟨[], 5, false, true, [], ["b"], ["md"], true⟩ 0 emptyState
      ⟨"b/x.md", "x", "md"⟩ "a/x.md").1
    (by decide) (by decide) (by decide) (by decide) (by decide) (by decide) (by decide)

/-- C4: a candidate matching a successfully compiled ignore pattern is
rejected before being queued (a name-change event whose old basename
matches, or a folder-change-side event whose old parent matches, leaves the
coordinator untouched) and rejected again at settlement time against the
patterns configured at that moment (covering patterns added after enqueue):
the settled aliases value gains no occurrence of the matched name. -/
theorem ignore_pattern_suppression (s : Settings) (now : Nat) (st : DebState)
    (f : TFileArg) (oldPath : String)
    (s2 : Settings) (base : String) (v : AliasesVal) (queue : List String) (name : String) :
    (isNameChangeB s (getBasename oldPath) f.basename = true →
     (compileRegexes s.ignoreRegexes).any (fun re => re (getBasename oldPath)) = true →
     handleRename s now st f oldPath = st) ∧
    (isNameChangeB s (getBasename oldPath) f.basename = false →
     (compileRegexes s.ignoreRegexes).any
        (fun re => re (getImmediateParentName oldPath)) = true →
     handleRename s now st f oldPath = st) ∧
    ((compileRegexes s2.ignoreRegexes).any (fun re => re name) = true →
     (aliasesOf (processAliasesFm s2 base v queue)).count name
       = (aliasesOf v).count name) := by
  refine ⟨?_, ?_, ?_⟩
  · intro hnc hmatch
    have hmatch2 : (compileRegexes s.ignoreRegexes).any
        (fun re => re (getBasename oldPath) || re f.basename) = true := by
      rw [List.any_eq_true] at hmatch ⊢
      obtain ⟨re, hre, h2⟩ := hmatch
      exact ⟨re, hre, by simp [h2]⟩
    simp [handleRename, hnc, hmatch2]
  · intro hnc hmatch
    have hmatch2 : (compileRegexes s.ignoreRegexes).any
        (fun re => re (getImmediateParentName oldPath)
          || re (getImmediateParentName f.path)) = true := by
      rw [List.any_eq_true] at hmatch ⊢
      obtain ⟨re, hre, h2⟩ := hmatch
      exact ⟨re, hre, by simp [h2]⟩
    simp [handleRename, hnc, hmatch2]
  · intro hmatch
    have hnot : name ∉ filterQueue s2 base queue :=
      matched_not_in_filterQueue s2 base name queue hmatch
    simp only [processAliasesFm]
    split
    · rfl
    · cases v with
      | arr xs =>
        obtain ⟨extra, he, hmem⟩ := pushAliasesAux_append s2.caseSensitive
          (filterQueue s2 base queue) xs (if s2.caseSensitive then xs else xs.map toLowerStr)
        have hcount : extra.count name = 0 := by
          rw [List.count_eq_zero]
          intro hin
          exact hnot (hmem name hin).1
        simp only [applyFrontMatter, he, aliasesOf]
        rw [List.count_append, hcount]
        omega
      | missing =>
        by_cases hauto : s2.autoCreateFrontmatter = true
        · obtain ⟨extra, he, hmem⟩ := pushAliasesAux_append s2.caseSensitive
            (filterQueue s2 base queue) [] []
          have hcount : extra.count name = 0 := by
            rw [List.count_eq_zero]
            intro hin
            exact hnot (hmem name hin).1
          simp only [applyFrontMatter, hauto, if_true, he, aliasesOf]
          simpa using hcount
        · have hauto' : s2.autoCreateFrontmatter = false := by simpa using hauto
          simp [applyFrontMatter, hauto']
      | nonList p =>
        by_cases hauto : s2.autoCreateFrontmatter = true
        · obtain ⟨extra, he, hmem⟩ := pushAliasesAux_append s2.caseSensitive
            (filterQueue s2 base queue) [] []
          have hcount : extra.count name = 0 := by
            rw [List.count_eq_zero]
            intro hin
            exact hnot (hmem name hin).1
          simp only [applyFrontMatter, hauto, if_true, he, aliasesOf]
          simpa using hcount
        · have hauto' : s2.autoCreateFrontmatter = false := by simpa using hauto
          simp [applyFrontMatter, hauto']

/-- Witness for C4: the pattern matching "draft" blocks the enqueue of a
rename away from draft.md; the pattern matching "old" blocks a folder-side
enqueue; and a pattern matching "bad" configured at settlement time adds no
occurrence of "bad" to an alias list already containing it. -/
theorem ignore_pattern_suppression_witness :
    handleRename ⟨[some (fun n => n == "draft")], 5, true, true, [], [], ["md"], false⟩ 0
        emptyState ⟨"final.md", "final", "md"⟩ "draft.md" = emptyState ∧
    handleRename ⟨[some (fun n => n == "old")], 5, false, true, [], [], ["md"], true⟩ 0
        emptyState ⟨"new/x.md", "x", "md"⟩ "old/x.md" = emptyState ∧
    (aliasesOf (processAliasesFm ⟨[some (fun n => n == "bad")], 5, false, true, [], [], ["md"], false⟩
        "f" (.arr ["bad"]) ["bad", "good"])).count "bad"
      = (aliasesOf (.arr ["bad"] : AliasesVal)).count "bad" :=
  ⟨(ignore_pattern_suppression ⟨[some (fun n => n == "draft")], 5, true, true, [], [], ["md"], false⟩
      0 emptyState ⟨"final.md", "final", "md"⟩ "draft.md"
      ⟨[], 5, false, true, [], [], ["md"], false⟩ "f" .missing [] "x").1
      (by decide) (by decide),
   (ignore_pattern_suppression ⟨[some (fun n => n == "old")], 5, false, true, [], [], ["md"], true⟩
      0 emptyState ⟨"new/x.md", "x", "md"⟩ "old/x.md"
      ⟨[], 5, false, true, [], [], ["md"], false⟩ "f" .missing [] "x").2.1
      (by decide) (by decide),
   (ignore_pattern_suppression ⟨[], 5, false, true, [], [], ["md"], false⟩ 0 emptyState
      ⟨"x.md", "x", "md"⟩ "y.md"
      ⟨[some (fun n => n == "bad")], 5, false, true, [], [], ["md"], false⟩
      "f" (.arr ["bad"]) ["bad", "good"] "bad").2.2
      (by decide)⟩
